import Mathlib

/-!
Verification of the minimum-edge-cover repository (src/graph.hpp, src/main.cpp).

The C++ code is shallowly embedded: `std::vector` becomes `List`, indexed
through bounds-checked accessors `getI`/`setI` that return `none` on an
out-of-range index (mirroring the fact that `operator[]` past the end is not a
defined access), `throw std::invalid_argument` becomes `Except.error`, and the
`while` loops of the matching engine take an explicit fuel argument, returning
`none` when the fuel runs out, so that termination is a provable statement.
-/

/-- `struct Edge` of graph.hpp: a pair of `int` endpoints. -/
structure Edge where
  u : Int
  v : Int
deriving DecidableEq, Repr

/-- `Edge::operator==` of graph.hpp: undirected equality of edges. -/
def edgeEq (a b : Edge) : Bool :=
  (a.u == b.u && a.v == b.v) || (a.u == b.v && a.v == b.u)

/-- Bounds-checked read `l[i]` with a C++ `int` index. -/
def getI {α : Type} (l : List α) (i : Int) : Option α :=
  if h : 0 ≤ i ∧ i.toNat < l.length then some (l.get ⟨i.toNat, h.2⟩) else none

/-- Bounds-checked write `l[i] = a` with a C++ `int` index. -/
def setI {α : Type} (l : List α) (i : Int) (a : α) : Option (List α) :=
  if 0 ≤ i ∧ i.toNat < l.length then some (l.set i.toNat a) else none

/-- The index list `0, 1, ..., n-1` of a C++ loop `for (int i = 0; i < n; i++)`. -/
def intRange (n : Int) : List Int :=
  List.map Int.ofNat (List.range n.toNat)

/-- Number of `false` entries of a `vector<bool>`; the fuel measure of the loops. -/
def countF : List Bool → Nat
  | [] => 0
  | b :: l => (if b then 0 else 1) + countF l

/-- Construction error of `MinEdgeCover::MinEdgeCover` (`std::invalid_argument`). -/
inductive ConsErr where
  | invalidArgument : String → ConsErr
deriving DecidableEq, Repr

/-- The state of a constructed `MinEdgeCover` object (graph.hpp, private fields). -/
structure MinEdgeCover where
  n : Int
  edges : List Edge
  adj : List (List Int)
deriving DecidableEq, Repr

/-- `adj[i].push_back(x)` (the caller has bounds-checked `i`). -/
def adjPush (adj : List (List Int)) (i x : Int) : List (List Int) :=
  adj.set i.toNat (adj.getD i.toNat [] ++ [x])

/-- The adjacency-building loop of the constructor: per edge, bounds check then
`adj[e.u].push_back(e.v); adj[e.v].push_back(e.u)`. -/
def buildAdj (n : Int) : List Edge → List (List Int) → Except ConsErr (List (List Int))
  | [], adj => .ok adj
  | e :: es, adj =>
    if e.u < 0 || e.u ≥ n || e.v < 0 || e.v ≥ n then
      .error (.invalidArgument "Invalid vertex index")
    else
      buildAdj n es (adjPush (adjPush adj e.u e.v) e.v e.u)

/-- `MinEdgeCover::MinEdgeCover(vertices, edgeList)`: validates `vertices > 0`,
edge endpoint ranges, and absence of isolated vertices, eagerly. -/
def mkMinEdgeCover (vertices : Int) (edgeList : List Edge) : Except ConsErr MinEdgeCover :=
  if vertices ≤ 0 then
    .error (.invalidArgument "Number of vertices must be positive")
  else
    match buildAdj vertices edgeList (List.replicate vertices.toNat []) with
    | .error err => .error err
    | .ok adj =>
      if adj.any List.isEmpty then
        .error (.invalidArgument "Graph contains isolated vertices - edge cover impossible")
      else
        .ok ⟨vertices, edgeList, adj⟩

/-- The greedy initial-matching loop of `findMaxMatching` (graph.hpp lines 29-38). -/
def greedyLoop : List Edge → List Int → List Bool → List Edge →
    Option (List Int × List Bool × List Edge)
  | [], m, us, acc => some (m, us, acc)
  | e :: es, m, us, acc => do
    let bu ← getI us e.u
    let bv ← getI us e.v
    if !bu && !bv then do
      let m1 ← setI m e.u e.v
      let m2 ← setI m1 e.v e.u
      let us1 ← setI us e.u true
      let us2 ← setI us1 e.v true
      greedyLoop es m2 us2 (acc ++ [e])
    else
      greedyLoop es m us acc

/-- The per-phase BFS state: `visited`, `parent`, the queue, and `pathEnd`. -/
structure BfsSt where
  vis : List Bool
  par : List Int
  q : List Int
  pathEnd : Int
deriving DecidableEq, Repr

/-- The root loop of a phase (graph.hpp lines 49-54): every unmatched vertex is
pushed and marked visited. -/
def initRootsLoop (m : List Int) : List Int → List Bool → List Int →
    Option (List Bool × List Int)
  | [], vis, q => some (vis, q)
  | i :: is, vis, q => do
    let mi ← getI m i
    if mi == -1 then do
      let vis1 ← setI vis i true
      initRootsLoop m is vis1 (q ++ [i])
    else
      initRootsLoop m is vis q

/-- The inner neighbour loop of the BFS (graph.hpp lines 61-75), with the
`break` once `pathEnd` is set. -/
def bfsNeighbors (m : List Int) (u : Int) : List Int → BfsSt → Option BfsSt
  | [], st => some st
  | v :: vs, st => do
    let b ← getI st.vis v
    if b then
      bfsNeighbors m u vs st
    else do
      let vis1 ← setI st.vis v true
      let par1 ← setI st.par v u
      let mv ← getI m v
      if mv == -1 then
        some ⟨vis1, par1, st.q, v⟩
      else do
        let vis2 ← setI vis1 mv true
        let par2 ← setI par1 mv v
        bfsNeighbors m u vs ⟨vis2, par2, st.q ++ [mv], st.pathEnd⟩

/-- The BFS `while (!q.empty() && pathEnd == -1)` loop (graph.hpp lines 57-76). -/
def bfsLoop (m : List Int) (adj : List (List Int)) : Nat → BfsSt → Option BfsSt
  | 0, _ => none
  | fuel + 1, st =>
    match st.q with
    | [] => some st
    | u :: rest =>
      if st.pathEnd != -1 then some st
      else do
        let nbrs ← getI adj u
        let st1 ← bfsNeighbors m u nbrs ⟨st.vis, st.par, rest, st.pathEnd⟩
        bfsLoop m adj fuel st1

/-- The augmentation walk (graph.hpp lines 81-88): flips matching pointers along
the parent chain, including the unguarded `parent[v]` read. -/
def augmentLoop (par : List Int) : Nat → Int → List Int → Option (List Int)
  | 0, _, _ => none
  | fuel + 1, v, m => do
    let pv ← getI par v
    if pv == -1 then some m
    else do
      let prev ← getI par pv
      let m1 ← setI m v pv
      let m2 ← setI m1 pv v
      augmentLoop par fuel prev m2

/-- Rebuilding the matching edge list from the match array (graph.hpp lines 91-96). -/
def rebuildMatching (n : Int) (m : List Int) : Option (List Edge) :=
  go (intRange n) []
where
  go : List Int → List Edge → Option (List Edge)
    | [], acc => some acc
    | i :: is, acc => do
      let mi ← getI m i
      if mi != -1 && i < mi then go is (acc ++ [⟨i, mi⟩])
      else go is acc

/-- The `while (improved)` phase loop of `findMaxMatching` (graph.hpp lines 41-98). -/
def improveLoop (g : MinEdgeCover) : Nat → List Int → List Edge → Option (List Edge)
  | 0, _, _ => none
  | fuel + 1, m, matching => do
    let (vis0, q0) ← initRootsLoop m (intRange g.n)
        (List.replicate g.n.toNat false) []
    let st ← bfsLoop m g.adj (2 * g.n.toNat + 1)
        ⟨vis0, List.replicate g.n.toNat (-1), q0, -1⟩
    if st.pathEnd == -1 then
      some matching
    else do
      let m1 ← augmentLoop st.par (g.n.toNat + 1) st.pathEnd m
      let matching1 ← rebuildMatching g.n m1
      improveLoop g fuel m1 matching1

/-- `MinEdgeCover::findMaxMatching` (graph.hpp lines 25-101): greedy seed, then
augmenting-path phases. -/
def findMaxMatching (g : MinEdgeCover) : Option (List Edge) := do
  let (m, _, matching) ← greedyLoop g.edges (List.replicate g.n.toNat (-1))
      (List.replicate g.n.toNat false) []
  improveLoop g (g.n.toNat + 1) m matching

/-- The covered-marking loop shared by `solve` and `isEdgeCover`:
`covered[e.u] = covered[e.v] = true` for each edge. -/
def markLoop : List Edge → List Bool → Option (List Bool)
  | [], c => some c
  | e :: es, c => do
    let c1 ← setI c e.u true
    let c2 ← setI c1 e.v true
    markLoop es c2

/-- The inner scan of `solve`'s completion loop: the first edge of the input
list incident to `i`, if any. -/
def findIncident (i : Int) : List Edge → Option Edge
  | [] => none
  | e :: es => if e.u == i || e.v == i then some e else findIncident i es

/-- One step of `solve`'s completion loop (graph.hpp lines 140-152): if vertex
`i` is uncovered, add the first incident edge and mark its endpoints. -/
def completionStep (edges : List Edge) (i : Int) (res : List Edge) (cov : List Bool) :
    Option (List Edge × List Bool) := do
  let c ← getI cov i
  if c then some (res, cov)
  else
    match findIncident i edges with
    | none => some (res, cov)
    | some e => do
      let cov1 ← setI cov i true
      let cov2 ← setI cov1 e.u true
      let cov3 ← setI cov2 e.v true
      some (res ++ [e], cov3)

/-- The completion loop over all vertices. -/
def completionLoop (edges : List Edge) : List Int → List Edge → List Bool →
    Option (List Edge × List Bool)
  | [], res, cov => some (res, cov)
  | i :: is, res, cov => do
    let (res1, cov1) ← completionStep edges i res cov
    completionLoop edges is res1 cov1

/-- `MinEdgeCover::solve` (graph.hpp lines 128-155): maximum matching, then one
incident edge per uncovered vertex. -/
def solve (g : MinEdgeCover) : Option (List Edge) := do
  let matching ← findMaxMatching g
  let cov ← markLoop matching (List.replicate g.n.toNat false)
  let (res, _) ← completionLoop g.edges (intRange g.n) matching cov
  some res

/-- `MinEdgeCover::isEdgeCover(n, cover)` (graph.hpp lines 158-168): marks both
endpoints of every candidate edge (no range check in the source; here the
unchecked `covered[e.u]` read-modify becomes a `none` on an out-of-range
endpoint), then scans all `n` cells. -/
def isEdgeCover (n : Int) (cover : List Edge) : Option Bool :=
  (markLoop cover (List.replicate n.toNat false)).map (fun c => c.all (fun b => b))

/-! ## The main.cpp variant (`class Graph`, Kuhn's per-vertex DFS) -/

/-- The state of a `Graph` object of main.cpp (`V`, `adj`, `edges`). -/
structure GraphM where
  V : Int
  adj : List (List Int)
  edges : List Edge
deriving DecidableEq, Repr

/-- `Graph::addEdge(u, v)` (main.cpp lines 30-34): pushes both adjacency
entries and records the edge normalised as `(min, max)`. -/
def addEdge (g : GraphM) (u v : Int) : GraphM :=
  { g with
    adj := adjPush (adjPush g.adj u v) v u,
    edges := g.edges ++ [⟨min u v, max u v⟩] }

/-- A `Graph(V)` followed by `addEdge` for every input pair. -/
def mkGraphM (V : Int) (input : List (Int × Int)) : GraphM :=
  input.foldl (fun g p => addEdge g p.1 p.2) ⟨V, List.replicate V.toNat [], []⟩

/-- The neighbour loop of `Graph::dfs` (main.cpp lines 48-57): `rec` is the
recursive call at one fuel less. -/
def dfsGo (rec : Int → List Int → List Bool → Option (Bool × List Int × List Bool))
    (v : Int) : List Int → List Int → List Bool → Option (Bool × List Int × List Bool)
  | [], m, us => some (false, m, us)
  | t :: rest, m, us => do
    let b ← getI us t
    if b then
      dfsGo rec v rest m us
    else do
      let us1 ← setI us t true
      let mt ← getI m t
      if mt == -1 then do
        let m1 ← setI m t v
        let m2 ← setI m1 v t
        some (true, m2, us1)
      else do
        let r ← rec mt m us1
        if r.1 then do
          let m1 ← setI r.2.1 t v
          let m2 ← setI m1 v t
          some (true, m2, r.2.2)
        else
          dfsGo rec v rest r.2.1 r.2.2

/-- `Graph::dfs(v, match, used)` (main.cpp lines 47-59), fuelled: each
recursive call happens after a fresh `used[t] = true` mark, so recursion
depth is bounded by the number of unmarked vertices. -/
def dfs (g : GraphM) : Nat → Int → List Int → List Bool →
    Option (Bool × List Int × List Bool)
  | 0, _, _, _ => none
  | fuel + 1, v, m, us => do
    let nbrs ← getI g.adj v
    dfsGo (dfs g fuel) v nbrs m us

/-- The per-vertex loop of `Graph::findMaxMatching` (main.cpp lines 65-70). -/
def kuhnLoop (g : GraphM) : List Int → List Int → Option (List Int)
  | [], m => some m
  | v :: vs, m => do
    let mv ← getI m v
    if mv == -1 then do
      let r ← dfs g (g.V.toNat + 1) v m (List.replicate g.V.toNat false)
      kuhnLoop g vs r.2.1
    else
      kuhnLoop g vs m

/-- `Graph::findMaxMatching` (main.cpp lines 62-73): Kuhn's algorithm, returning
the match array. -/
def findMaxMatchingM (g : GraphM) : Option (List Int) :=
  kuhnLoop g (intRange g.V) (List.replicate g.V.toNat (-1))

/-! ## Concrete refutations -/

/-- Two edges share no endpoint. -/
def edgesDisjoint (a b : Edge) : Bool :=
  a.u != b.u && a.u != b.v && a.v != b.u && a.v != b.v

/-- No two edges of the list share an endpoint. -/
def pairwiseDisjoint : List Edge → Bool
  | [] => true
  | e :: l => l.all (edgesDisjoint e) && pairwiseDisjoint l

/-- `cand` is a matching of the graph whose edge list is `es`: every candidate
edge is an edge of the graph (undirected equality) and no endpoint repeats. -/
def isMatchingOf (es cand : List Edge) : Bool :=
  cand.all (fun e => es.any (edgeEq e)) && pairwiseDisjoint cand

/-- C1: on the valid graph `n = 4`, edges `(1,2), (0,1), (2,3)` (a path whose
middle edge comes first), `solve()` returns the 3-edge set
`{(1,2), (0,1), (2,3)}`, yet `{(0,1), (2,3)}` is a 2-edge edge cover drawn from
the graph's own edges, and `{(0,1), (2,3)}` is also a matching of size 2, so the
maximum matching has ≥ 2 edges and `n − |maximum matching| ≤ 2 < 3`: the
returned cover is neither minimum nor of size `n − |maximum matching|`. -/
theorem solve_not_minimum_on_reordered_path :
    (mkMinEdgeCover 4 [⟨1,2⟩, ⟨0,1⟩, ⟨2,3⟩]).toOption.bind solve
      = some [⟨1,2⟩, ⟨0,1⟩, ⟨2,3⟩] ∧
    isEdgeCover 4 [⟨0,1⟩, ⟨2,3⟩] = some true ∧
    isMatchingOf [⟨1,2⟩, ⟨0,1⟩, ⟨2,3⟩] [⟨0,1⟩, ⟨2,3⟩] = true ∧
    ([⟨0,1⟩, ⟨2,3⟩] : List Edge).length = 2 ∧
    ([⟨1,2⟩, ⟨0,1⟩, ⟨2,3⟩] : List Edge).length = 3 := by
  refine ⟨by decide, by decide, by decide, by decide, by decide⟩

/-- C2: on the same valid graph, `findMaxMatching()` of graph.hpp returns the
single edge `(1,2)` although `{(0,1), (2,3)}` is a matching of the graph with 2
edges: the result is not of maximum cardinality. (The BFS improvement phase
marks every unmatched vertex visited at the start, so the condition
`!visited[v] && match[v] == -1` that would set `pathEnd` is unsatisfiable and no
augmenting path is ever applied.) -/
theorem findMaxMatching_not_maximum :
    (mkMinEdgeCover 4 [⟨1,2⟩, ⟨0,1⟩, ⟨2,3⟩]).toOption.bind findMaxMatching
      = some [⟨1,2⟩] ∧
    isMatchingOf [⟨1,2⟩, ⟨0,1⟩, ⟨2,3⟩] [⟨0,1⟩, ⟨2,3⟩] = true ∧
    ([⟨1,2⟩] : List Edge).length = 1 ∧ ([⟨0,1⟩, ⟨2,3⟩] : List Edge).length = 2 := by
  refine ⟨by decide, by decide, by decide, by decide⟩

/-- C4: on the triangle `n = 3`, edges `(0,1), (1,2), (2,0)` (main.cpp's own
test graph 1), the per-vertex DFS engine of main.cpp returns
`match = [2, 2, 1]`: `match[0] = 2` is defined, yet `match[match[0]] =
match[2] = 1 ≠ 0`, so the match array is not a symmetric partial involution,
and vertex 2 appears in two pairs (`match[0] = 2` and `match[1] = 2`). -/
theorem dfs_match_not_involution_on_triangle :
    findMaxMatchingM (mkGraphM 3 [(0,1), (1,2), (2,0)]) = some [2, 2, 1] ∧
    getI ([2, 2, 1] : List Int) 0 = some 2 ∧ ((2 : Int) ≠ -1) ∧
    getI ([2, 2, 1] : List Int) 2 = some 1 ∧ ((1 : Int) ≠ 0) := by
  refine ⟨by decide, by decide, by decide, by decide, by decide⟩

/-! ## Lemmas about the bounds-checked accessors -/

theorem getI_eq_if {α : Type} (l : List α) (i : Int) :
    getI l i = if 0 ≤ i then l.get? i.toNat else none := by
  unfold getI
  split
  · rename_i h
    rw [if_pos h.1, List.get?_eq_get h.2]
  · rename_i h
    by_cases h0 : 0 ≤ i
    · have hlen : l.length ≤ i.toNat := by
        by_contra hc
        exact h ⟨h0, Nat.lt_of_not_le hc⟩
      rw [if_pos h0, List.get?_eq_none.mpr hlen]
    · rw [if_neg h0]

theorem getI_pos {α : Type} {l : List α} {i : Int} (h0 : 0 ≤ i) :
    getI l i = l.get? i.toNat := by
  rw [getI_eq_if, if_pos h0]

theorem getI_neg {α : Type} {l : List α} {i : Int} (h0 : i < 0) :
    getI l i = none := by
  rw [getI_eq_if, if_neg (by omega)]

theorem getI_bounds {α : Type} {l : List α} {i : Int} {a : α}
    (h : getI l i = some a) : 0 ≤ i ∧ i.toNat < l.length := by
  unfold getI at h
  split at h
  · rename_i hh
    exact hh
  · cases h

theorem getI_mem {α : Type} {l : List α} {i : Int} {a : α}
    (h : getI l i = some a) : a ∈ l := by
  unfold getI at h
  split at h
  · injection h with h
    exact h ▸ List.get_mem _ _ _
  · cases h

theorem getI_of_inBounds {α : Type} {l : List α} {i : Int}
    (h0 : 0 ≤ i) (h1 : i.toNat < l.length) : ∃ a, getI l i = some a := by
  rw [getI_pos h0, List.get?_eq_get h1]
  exact ⟨_, rfl⟩

theorem setI_eq_some {α : Type} {l l' : List α} {i : Int} {a : α}
    (h : setI l i a = some l') :
    0 ≤ i ∧ i.toNat < l.length ∧ l' = l.set i.toNat a := by
  unfold setI at h
  split at h
  · rename_i hh
    refine ⟨hh.1, hh.2, ?_⟩
    injection h with h
    exact h.symm
  · cases h

theorem setI_some_of {α : Type} {l : List α} {i : Int} (a : α)
    (h0 : 0 ≤ i) (h1 : i.toNat < l.length) :
    setI l i a = some (l.set i.toNat a) := by
  unfold setI
  rw [if_pos ⟨h0, h1⟩]

theorem length_setI {α : Type} {l l' : List α} {i : Int} {a : α}
    (h : setI l i a = some l') : l'.length = l.length := by
  obtain ⟨_, _, rfl⟩ := setI_eq_some h
  exact List.length_set l i.toNat a

theorem getI_setI_self {α : Type} {l l' : List α} {i : Int} {a : α}
    (h : setI l i a = some l') : getI l' i = some a := by
  obtain ⟨h0, h1, rfl⟩ := setI_eq_some h
  rw [getI_pos h0, List.get?_set_eq, List.get?_eq_get h1]
  rfl

theorem getI_setI_ne {α : Type} {l l' : List α} {i j : Int} {a : α}
    (h : setI l i a = some l') (hne : j ≠ i) : getI l' j = getI l j := by
  obtain ⟨h0, h1, rfl⟩ := setI_eq_some h
  by_cases hj : 0 ≤ j
  · rw [getI_pos hj, getI_pos hj]
    exact List.get?_set_ne a l (by omega)
  · rw [getI_neg (by omega), getI_neg (by omega)]

theorem getI_setI_true {l l' : List Bool} {i j : Int}
    (h : setI l i true = some l') (ht : getI l j = some true) :
    getI l' j = some true := by
  by_cases hij : j = i
  · exact hij ▸ getI_setI_self h
  · rw [getI_setI_ne h hij]
    exact ht

theorem getI_replicate {α : Type} {n : Nat} {a : α} {i : Int}
    (h0 : 0 ≤ i) (h1 : i.toNat < n) :
    getI (List.replicate n a) i = some a := by
  have hl : i.toNat < (List.replicate n a).length := by
    rw [List.length_replicate]; exact h1
  rw [getI_pos h0, List.get?_eq_get hl, List.get_replicate]

theorem mem_intRange {n i : Int} : i ∈ intRange n ↔ 0 ≤ i ∧ i < n := by
  simp only [intRange, List.mem_map, List.mem_range, Int.ofNat_eq_coe]
  constructor
  · rintro ⟨k, hk, rfl⟩
    omega
  · rintro ⟨h0, h1⟩
    exact ⟨i.toNat, by omega, by omega⟩

theorem countF_le_length (l : List Bool) : countF l ≤ l.length := by
  induction l with
  | nil => simp [countF]
  | cons b l ih =>
    cases b <;> simp [countF] <;> omega

theorem countF_set_true_le (l : List Bool) (k : Nat) :
    countF (l.set k true) ≤ countF l := by
  induction l generalizing k with
  | nil => simp
  | cons b l ih =>
    cases k with
    | zero => cases b <;> simp [countF]
    | succ k =>
      have h := ih k
      cases b <;> simp [countF] <;> omega

theorem countF_set_true_lt (l : List Bool) (k : Nat) (h : l.get? k = some false) :
    countF (l.set k true) < countF l := by
  induction l generalizing k with
  | nil => simp at h
  | cons b l ih =>
    cases k with
    | zero =>
      have hb : b = false := by
        simpa using h
      subst hb
      simp [countF]
    | succ k =>
      have hlt := ih k (by simpa using h)
      cases b <;> simp [countF] <;> omega

/-! ## Constructor characterization -/

/-- Whether an `Except` value is an error (a thrown `std::invalid_argument`). -/
def isErr {ε α : Type} : Except ε α → Bool
  | .error _ => true
  | .ok _ => false

theorem adjPush_length (adj : List (List Int)) (i x : Int) :
    (adjPush adj i x).length = adj.length :=
  List.length_set _ _ _

theorem adjPush_getD (adj : List (List Int)) (i x : Int) (k : Nat)
    (h1 : i.toNat < adj.length) :
    (adjPush adj i x).getD k [] =
      if i.toNat = k then adj.getD k [] ++ [x] else adj.getD k [] := by
  unfold adjPush
  by_cases hk : i.toNat = k
  · subst hk
    rw [if_pos rfl, List.getD_eq_get?, List.get?_set_eq, List.get?_eq_get h1,
      List.getD_eq_get?, List.get?_eq_get h1]
    rfl
  · rw [if_neg hk, List.getD_eq_get?, List.get?_set_ne _ _ hk, List.getD_eq_get?]

theorem getD_replicate_nil (m k : Nat) :
    (List.replicate m ([] : List Int)).getD k [] = [] := by
  rw [List.getD_eq_get?]
  rcases h : (List.replicate m ([] : List Int)).get? k with _ | l
  · rfl
  · obtain ⟨hk, hget⟩ := List.get?_eq_some.mp h
    rw [List.get_replicate] at hget
    rw [← hget]
    rfl

theorem buildAdj_ok_bounds {n : Int} :
    ∀ {es : List Edge} {adj0 adj : List (List Int)},
    buildAdj n es adj0 = .ok adj →
    ∀ e ∈ es, 0 ≤ e.u ∧ e.u < n ∧ 0 ≤ e.v ∧ e.v < n := by
  intro es
  induction es with
  | nil =>
    intro adj0 adj h e he
    cases he
  | cons e0 es ih =>
    intro adj0 adj h e he
    unfold buildAdj at h
    split at h
    · cases h
    · rename_i hguard
      simp only [Bool.or_eq_true, decide_eq_true_eq, not_or] at hguard
      rcases List.mem_cons.mp he with rfl | hmem
      · omega
      · exact ih h e hmem

theorem buildAdj_ok_of_bounds {n : Int} :
    ∀ (es : List Edge) (adj0 : List (List Int)),
    (∀ e ∈ es, 0 ≤ e.u ∧ e.u < n ∧ 0 ≤ e.v ∧ e.v < n) →
    ∃ adj, buildAdj n es adj0 = .ok adj := by
  intro es
  induction es with
  | nil =>
    exact fun adj0 _ => ⟨adj0, rfl⟩
  | cons e0 es ih =>
    intro adj0 hb
    have h0 := hb e0 (List.mem_cons_self _ _)
    unfold buildAdj
    rw [if_neg (by simp only [Bool.or_eq_true, decide_eq_true_eq, not_or]; omega)]
    exact ih _ (fun e he => hb e (List.mem_cons_of_mem _ he))

theorem buildAdj_error_bad {n : Int} :
    ∀ {es : List Edge} {adj0 : List (List Int)} {err : ConsErr},
    buildAdj n es adj0 = .error err →
    ∃ e ∈ es, ¬(0 ≤ e.u ∧ e.u < n ∧ 0 ≤ e.v ∧ e.v < n) := by
  intro es
  induction es with
  | nil =>
    intro adj0 err h
    cases h
  | cons e0 es ih =>
    intro adj0 err h
    unfold buildAdj at h
    split at h
    · rename_i hguard
      simp only [Bool.or_eq_true, decide_eq_true_eq] at hguard
      exact ⟨e0, List.mem_cons_self _ _, by omega⟩
    · obtain ⟨e, he, hbad⟩ := ih h
      exact ⟨e, List.mem_cons_of_mem _ he, hbad⟩

theorem buildAdj_length {n : Int} :
    ∀ {es : List Edge} {adj0 adj : List (List Int)},
    buildAdj n es adj0 = .ok adj → adj.length = adj0.length := by
  intro es
  induction es with
  | nil =>
    intro adj0 adj h
    cases h
    rfl
  | cons e0 es ih =>
    intro adj0 adj h
    unfold buildAdj at h
    split at h
    · cases h
    · rw [ih h, adjPush_length, adjPush_length]

theorem mem_adjPush2 {adj : List (List Int)} {e : Edge} {k : Nat} {x : Int} {n : Int}
    (hu : 0 ≤ e.u) (hu2 : e.u < n) (hv : 0 ≤ e.v) (hv2 : e.v < n)
    (hlen : adj.length = n.toNat) :
    x ∈ (adjPush (adjPush adj e.u e.v) e.v e.u).getD k [] ↔
      (x ∈ adj.getD k [] ∨ (e.u = (k : Int) ∧ e.v = x) ∨ (e.v = (k : Int) ∧ e.u = x)) := by
  have l1 : e.u.toNat < adj.length := by omega
  have l2 : e.v.toNat < (adjPush adj e.u e.v).length := by
    rw [adjPush_length]; omega
  have hiffu : (e.u = (k : Int)) ↔ (e.u.toNat = k) := by omega
  have hiffv : (e.v = (k : Int)) ↔ (e.v.toNat = k) := by omega
  rw [adjPush_getD _ _ _ _ l2, adjPush_getD _ _ _ _ l1, hiffu, hiffv]
  by_cases h1 : e.v.toNat = k <;> by_cases h2 : e.u.toNat = k <;>
    simp [h1, h2, List.mem_append, eq_comm]

theorem buildAdj_mem {n : Int} :
    ∀ {es : List Edge} {adj0 adj : List (List Int)},
    buildAdj n es adj0 = .ok adj → adj0.length = n.toNat →
    ∀ (k : Nat), k < n.toNat → ∀ x : Int,
      (x ∈ adj.getD k [] ↔ x ∈ adj0.getD k [] ∨
        ∃ e ∈ es, (e.u = (k : Int) ∧ e.v = x) ∨ (e.v = (k : Int) ∧ e.u = x)) := by
  intro es
  induction es with
  | nil =>
    intro adj0 adj h hlen k hk x
    cases h
    simp
  | cons e0 es ih =>
    intro adj0 adj h hlen k hk x
    unfold buildAdj at h
    split at h
    · cases h
    · rename_i hguard
      simp only [Bool.or_eq_true, decide_eq_true_eq, not_or] at hguard
      have hlen1 : (adjPush (adjPush adj0 e0.u e0.v) e0.v e0.u).length = n.toNat := by
        rw [adjPush_length, adjPush_length]; exact hlen
      rw [ih h hlen1 k hk x,
        mem_adjPush2 (by omega) (by omega) (by omega) (by omega) hlen]
      constructor
      · rintro ((hm | hp | hp) | ⟨e, he, hp⟩)
        · exact Or.inl hm
        · exact Or.inr ⟨e0, List.mem_cons_self _ _, Or.inl hp⟩
        · exact Or.inr ⟨e0, List.mem_cons_self _ _, Or.inr hp⟩
        · exact Or.inr ⟨e, List.mem_cons_of_mem _ he, hp⟩
      · rintro (hm | ⟨e, he, hp⟩)
        · exact Or.inl (Or.inl hm)
        · rcases List.mem_cons.mp he with rfl | hmem
          · exact Or.inl (Or.inr hp)
          · exact Or.inr ⟨e, hmem, hp⟩

theorem mk_reduce {n : Int} {es : List Edge} {adj : List (List Int)}
    (hn : ¬n ≤ 0) (hba : buildAdj n es (List.replicate n.toNat []) = .ok adj) :
    mkMinEdgeCover n es =
      if adj.any List.isEmpty then
        .error (.invalidArgument "Graph contains isolated vertices - edge cover impossible")
      else .ok ⟨n, es, adj⟩ := by
  unfold mkMinEdgeCover
  rw [if_neg hn, hba]

theorem mk_reduce_err {n : Int} {es : List Edge} {err : ConsErr}
    (hn : ¬n ≤ 0) (hba : buildAdj n es (List.replicate n.toNat []) = .error err) :
    mkMinEdgeCover n es = .error err := by
  unfold mkMinEdgeCover
  rw [if_neg hn, hba]

theorem mk_ok_spec {n : Int} {es : List Edge} {g : MinEdgeCover}
    (h : mkMinEdgeCover n es = .ok g) :
    g.n = n ∧ g.edges = es ∧ 0 < n ∧ g.adj.length = n.toNat ∧
    (∀ e ∈ es, 0 ≤ e.u ∧ e.u < n ∧ 0 ≤ e.v ∧ e.v < n) ∧
    (∀ k : Nat, k < n.toNat → ∀ x : Int,
      (x ∈ g.adj.getD k [] ↔
        ∃ e ∈ es, (e.u = (k : Int) ∧ e.v = x) ∨ (e.v = (k : Int) ∧ e.u = x))) ∧
    (∀ k : Nat, k < n.toNat → g.adj.getD k [] ≠ []) := by
  by_cases hn : n ≤ 0
  · unfold mkMinEdgeCover at h
    rw [if_pos hn] at h
    cases h
  · cases hba : buildAdj n es (List.replicate n.toNat []) with
    | error err =>
      rw [mk_reduce_err hn hba] at h
      cases h
    | ok adj =>
      rw [mk_reduce hn hba] at h
      split at h
      · cases h
      · rename_i hiso
        injection h with h2
        subst h2
        have hlen : adj.length = n.toNat := by
          rw [buildAdj_length hba, List.length_replicate]
        refine ⟨rfl, rfl, by omega, hlen, buildAdj_ok_bounds hba, ?_, ?_⟩
        · intro k hk x
          rw [buildAdj_mem hba (by rw [List.length_replicate]) k hk x, getD_replicate_nil]
          simp
        · intro k hk
          have hkl : k < adj.length := by omega
          have hget : adj.getD k [] = adj.get ⟨k, hkl⟩ := by
            rw [List.getD_eq_get?, List.get?_eq_get hkl]
            rfl
          rw [hget]
          intro hemp
          exact hiso (List.any_eq_true.mpr ⟨_, List.get_mem _ _ _, by rw [hemp]; rfl⟩)

theorem construction_invalidArgument_iff (n : Int) (es : List Edge) :
    isErr (mkMinEdgeCover n es) = true ↔
      (n ≤ 0 ∨ (∃ e ∈ es, ¬(0 ≤ e.u ∧ e.u < n ∧ 0 ≤ e.v ∧ e.v < n)) ∨
        (∃ i ∈ intRange n, ∀ e ∈ es, e.u ≠ i ∧ e.v ≠ i)) := by
  by_cases hn : n ≤ 0
  · unfold mkMinEdgeCover
    rw [if_pos hn]
    exact iff_of_true rfl (Or.inl hn)
  · cases hba : buildAdj n es (List.replicate n.toNat []) with
    | error err =>
      rw [mk_reduce_err hn hba]
      exact iff_of_true rfl (Or.inr (Or.inl (buildAdj_error_bad hba)))
    | ok adj =>
      rw [mk_reduce hn hba]
      have hbnd := buildAdj_ok_bounds hba
      have hlen : adj.length = n.toNat := by
        rw [buildAdj_length hba, List.length_replicate]
      have hmem : ∀ (k : Nat), k < n.toNat → ∀ x : Int,
          (x ∈ adj.getD k [] ↔
            ∃ e ∈ es, (e.u = (k : Int) ∧ e.v = x) ∨ (e.v = (k : Int) ∧ e.u = x)) := by
        intro k hk x
        rw [buildAdj_mem hba (by rw [List.length_replicate]) k hk x, getD_replicate_nil]
        simp
      by_cases hiso : adj.any List.isEmpty
      · rw [if_pos hiso]
        obtain ⟨l, hl, hle⟩ := List.any_eq_true.mp hiso
        obtain ⟨⟨k, hk⟩, hget⟩ := List.mem_iff_get.mp hl
        have hgetD : adj.getD k [] = [] := by
          rw [List.getD_eq_get?, List.get?_eq_get hk]
          rw [List.isEmpty_iff] at hle
          rw [← hle, hget]
          rfl
        refine iff_of_true rfl
          (Or.inr (Or.inr ⟨(k : Int), mem_intRange.mpr ⟨by omega, by omega⟩, ?_⟩))
        intro e he
        constructor
        · intro hu
          have : e.v ∈ adj.getD k [] :=
            (hmem k (by omega) e.v).mpr ⟨e, he, Or.inl ⟨hu, rfl⟩⟩
          rw [hgetD] at this
          cases this
        · intro hv
          have : e.u ∈ adj.getD k [] :=
            (hmem k (by omega) e.u).mpr ⟨e, he, Or.inr ⟨hv, rfl⟩⟩
          rw [hgetD] at this
          cases this
      · rw [if_neg hiso]
        constructor
        · intro h
          cases h
        · rintro (h | ⟨e, he, hbad⟩ | ⟨i, hi, hinc⟩)
          · omega
          · exact absurd (hbnd e he) hbad
          · obtain ⟨h0, h1⟩ := mem_intRange.mp hi
            have hkl : i.toNat < adj.length := by omega
            have hne : adj.getD i.toNat [] ≠ [] := by
              have hget : adj.getD i.toNat [] = adj.get ⟨i.toNat, hkl⟩ := by
                rw [List.getD_eq_get?, List.get?_eq_get hkl]
                rfl
              rw [hget]
              intro hemp
              exact hiso (List.any_eq_true.mpr ⟨_, List.get_mem _ _ _, by rw [hemp]; rfl⟩)
            rcases hx : adj.getD i.toNat [] with _ | ⟨x, xs⟩
            · exact (hne hx).elim
            · have hxm : x ∈ adj.getD i.toNat [] := by
                rw [hx]
                exact List.mem_cons_self _ _
              obtain ⟨e, he, hp⟩ := (hmem i.toNat (by omega) x).mp hxm
              have hik : ((i.toNat : Nat) : Int) = i := by omega
              rcases hp with ⟨hu, _⟩ | ⟨hv, _⟩
              · exact ((hinc e he).1 (by rw [hu, hik])).elim
              · exact ((hinc e he).2 (by rw [hv, hik])).elim

/-- Witness for C5: a graph with an isolated vertex (`n = 3`, single edge
`(0,1)`, vertex 2 isolated) is rejected. -/
theorem construction_invalidArgument_iff_witness :
    isErr (mkMinEdgeCover 3 [⟨0, 1⟩]) = true :=
  (construction_invalidArgument_iff 3 [⟨0, 1⟩]).mpr
    (Or.inr (Or.inr ⟨2, by decide, by decide⟩))

/-! ## The cover verifier -/

theorem setI_isSome_iff {α : Type} {l : List α} {i : Int} {a : α} :
    (setI l i a).isSome = true ↔ (0 ≤ i ∧ i.toNat < l.length) := by
  unfold setI
  split
  · rename_i h
    exact iff_of_true rfl h
  · rename_i h
    exact iff_of_false (by simp) h

theorem markLoop_spec : ∀ (es : List Edge) (c : List Bool),
    (∀ e ∈ es, 0 ≤ e.u ∧ e.u.toNat < c.length ∧ 0 ≤ e.v ∧ e.v.toNat < c.length) →
    ∃ c', markLoop es c = some c' ∧ c'.length = c.length ∧
      (∀ i : Int, getI c i = some true → getI c' i = some true) ∧
      (∀ e ∈ es, getI c' e.u = some true ∧ getI c' e.v = some true) ∧
      (∀ i : Int, getI c' i = some true →
        getI c i = some true ∨ ∃ e ∈ es, e.u = i ∨ e.v = i) := by
  intro es
  induction es with
  | nil =>
    intro c _
    exact ⟨c, rfl, rfl, fun i h => h, by simp, fun i h => Or.inl h⟩
  | cons e es ih =>
    intro c hb
    obtain ⟨hu0, hu1, hv0, hv1⟩ := hb e (List.mem_cons_self _ _)
    have hs1 := setI_some_of true hu0 hu1
    have hl1 : (c.set e.u.toNat true).length = c.length := List.length_set _ _ _
    have hs2 := setI_some_of true hv0
      (show e.v.toNat < (c.set e.u.toNat true).length by rw [hl1]; exact hv1)
    have hl2 : ((c.set e.u.toNat true).set e.v.toNat true).length =
        (c.set e.u.toNat true).length := List.length_set _ _ _
    obtain ⟨c', hml, hlen, hmono, hmarks, hprov⟩ :=
      ih ((c.set e.u.toNat true).set e.v.toNat true) (fun e' he' => by
        have hbb := hb e' (List.mem_cons_of_mem _ he')
        rw [hl2, hl1]
        exact hbb)
    refine ⟨c', ?_, by rw [hlen, hl2, hl1], ?_, ?_, ?_⟩
    · simp only [markLoop, Option.bind_eq_bind, hs1, Option.some_bind, hs2, hml]
    · intro i hi
      exact hmono i (getI_setI_true hs2 (getI_setI_true hs1 hi))
    · intro e' he'
      rcases List.mem_cons.mp he' with rfl | hmem
      · exact ⟨hmono _ (getI_setI_true hs2 (getI_setI_self hs1)),
          hmono _ (getI_setI_self hs2)⟩
      · exact hmarks e' hmem
    · intro i hi
      rcases hprov i hi with h2 | ⟨e', he', hp⟩
      · by_cases hiv : i = e.v
        · exact Or.inr ⟨e, List.mem_cons_self _ _, Or.inr hiv.symm⟩
        · rw [getI_setI_ne hs2 hiv] at h2
          by_cases hiu : i = e.u
          · exact Or.inr ⟨e, List.mem_cons_self _ _, Or.inl hiu.symm⟩
          · rw [getI_setI_ne hs1 hiu] at h2
            exact Or.inl h2
      · exact Or.inr ⟨e', List.mem_cons_of_mem _ he', hp⟩

theorem markLoop_some_bounds : ∀ {es : List Edge} {c c' : List Bool},
    markLoop es c = some c' →
    ∀ e ∈ es, 0 ≤ e.u ∧ e.u.toNat < c.length ∧ 0 ≤ e.v ∧ e.v.toNat < c.length := by
  intro es
  induction es with
  | nil =>
    intro c c' _ e he
    cases he
  | cons e0 es ih =>
    intro c c' h e he
    simp only [markLoop, Option.bind_eq_bind] at h
    cases hs1 : setI c e0.u true with
    | none =>
      rw [hs1] at h
      simp at h
    | some c1 =>
      rw [hs1, Option.some_bind] at h
      cases hs2 : setI c1 e0.v true with
      | none =>
        rw [hs2] at h
        simp at h
      | some c2 =>
        rw [hs2, Option.some_bind] at h
        obtain ⟨hu0, hu1, _⟩ := setI_eq_some hs1
        obtain ⟨hv0, hv1, _⟩ := setI_eq_some hs2
        have hl1 : c1.length = c.length := length_setI hs1
        have hl2 : c2.length = c.length := by rw [length_setI hs2, hl1]
        rcases List.mem_cons.mp he with rfl | hmem
        · exact ⟨hu0, hu1, hv0, by omega⟩
        · obtain ⟨a, b, d, f⟩ := ih h e hmem
          exact ⟨a, by omega, d, by omega⟩

theorem isEdgeCover_isSome_iff (n : Int) (cover : List Edge) :
    (isEdgeCover n cover).isSome = true ↔
      ∀ e ∈ cover, 0 ≤ e.u ∧ e.u < n ∧ 0 ≤ e.v ∧ e.v < n := by
  unfold isEdgeCover
  constructor
  · intro h
    rcases hml : markLoop cover (List.replicate n.toNat false) with _ | c
    · rw [hml] at h
      simp at h
    · intro e he
      have hb := markLoop_some_bounds hml e he
      rw [List.length_replicate] at hb
      omega
  · intro hb
    obtain ⟨c', hml, _⟩ := markLoop_spec cover (List.replicate n.toNat false)
      (fun e he => by
        have hbb := hb e he
        rw [List.length_replicate]
        omega)
    rw [hml]
    simp

/-- C10: the cover verifier's marking loop indexes `covered[e.u]`, `covered[e.v]`
with no range check, so evaluation stays in bounds exactly when every endpoint
of every candidate edge lies in `[0, n)`; in particular with `n = 0` and the
nonempty candidate `[(0,0)]` the access is out of bounds (modelled as `none`). -/
theorem isEdgeCover_inbounds_iff :
    (∀ (n : Int) (cover : List Edge),
      ((isEdgeCover n cover).isSome = true ↔
        ∀ e ∈ cover, 0 ≤ e.u ∧ e.u < n ∧ 0 ≤ e.v ∧ e.v < n)) ∧
    isEdgeCover 0 [⟨0, 0⟩] = none :=
  ⟨isEdgeCover_isSome_iff, by decide⟩

/-- Witness for C10: a fully in-bounds candidate evaluates without error. -/
theorem isEdgeCover_inbounds_iff_witness :
    (isEdgeCover 2 [⟨0, 1⟩]).isSome = true :=
  (isEdgeCover_inbounds_iff.1 2 [⟨0, 1⟩]).mpr (by decide)

/-- C7: for in-range candidates, `isEdgeCover(n, cover)` returns `true` exactly
when every vertex of `[0, n)` is an endpoint of some edge of `cover`; it is a
pure function of `n` and `cover` alone. -/
theorem isEdgeCover_true_iff (n : Int) (cover : List Edge)
    (hb : ∀ e ∈ cover, 0 ≤ e.u ∧ e.u < n ∧ 0 ≤ e.v ∧ e.v < n) :
    (isEdgeCover n cover = some true ↔
      ∀ v ∈ intRange n, ∃ e ∈ cover, e.u = v ∨ e.v = v) := by
  obtain ⟨c', hml, hlen, hmono, hmarks, hprov⟩ :=
    markLoop_spec cover (List.replicate n.toNat false)
      (fun e he => by
        have hbb := hb e he
        rw [List.length_replicate]
        omega)
  rw [List.length_replicate] at hlen
  unfold isEdgeCover
  rw [hml, Option.map_some']
  rw [show (some (c'.all fun b => b) = some true) ↔ (c'.all (fun b => b) = true) by simp]
  rw [List.all_eq_true]
  constructor
  · intro hall v hv
    obtain ⟨h0, h1⟩ := mem_intRange.mp hv
    have hk : v.toNat < c'.length := by omega
    have hget : getI c' v = some (c'.get ⟨v.toNat, hk⟩) := by
      rw [getI_pos h0, List.get?_eq_get hk]
    have htrue : c'.get ⟨v.toNat, hk⟩ = true := hall _ (List.get_mem _ _ _)
    rcases hprov v (by rw [hget, htrue]) with hbase | hex
    · rw [getI_replicate h0 (by omega)] at hbase
      cases hbase
    · exact hex
  · intro hcov b hbmem
    obtain ⟨⟨k, hk⟩, hget⟩ := List.mem_iff_get.mp hbmem
    have hkn : k < n.toNat := by omega
    obtain ⟨e, he, hp⟩ := hcov (k : Int) (mem_intRange.mpr ⟨by omega, by omega⟩)
    have hmark := hmarks e he
    have htrue : getI c' (k : Int) = some true := by
      rcases hp with hp | hp
      · rw [← hp]
        exact hmark.1
      · rw [← hp]
        exact hmark.2
    rw [getI_pos (by omega), List.get?_eq_get (by simpa using hk)] at htrue
    have hg : c'.get ⟨k, hk⟩ = true := Option.some_injective _ htrue
    rw [← hget]
    exact hg

/-- Witness for C7: the single edge `(0,1)` covers both vertices of `n = 2`. -/
theorem isEdgeCover_true_iff_witness :
    isEdgeCover 2 [⟨0, 1⟩] = some true :=
  (isEdgeCover_true_iff 2 [⟨0, 1⟩] (by decide)).mpr (by decide)

/-! ## The greedy seed matching -/

theorem edgeEq_true_iff {a b : Edge} :
    edgeEq a b = true ↔ ((a.u = b.u ∧ a.v = b.v) ∨ (a.u = b.v ∧ a.v = b.u)) := by
  simp [edgeEq, Bool.or_eq_true, Bool.and_eq_true, beq_iff_eq]

theorem intRange_length (n : Int) : (intRange n).length = n.toNat := by
  simp [intRange]

theorem getI_getD {α : Type} {l : List α} {i : Int} {a : α} (d : α)
    (h : getI l i = some a) : l.getD i.toNat d = a := by
  obtain ⟨h0, h1⟩ := getI_bounds h
  rw [getI_pos h0, List.get?_eq_get h1] at h
  rw [List.getD_eq_get?, List.get?_eq_get h1]
  exact Option.some_injective _ h

theorem greedyLoop_spec {n : Int} :
    ∀ (es : List Edge) (m : List Int) (us : List Bool) (acc : List Edge),
    (∀ e ∈ es, 0 ≤ e.u ∧ e.u < n ∧ 0 ≤ e.v ∧ e.v < n) →
    m.length = n.toNat → us.length = n.toNat →
    (∀ i x, getI m i = some x → x = -1 ∨ (0 ≤ x ∧ x < n)) →
    (∀ e ∈ acc, getI us e.u = some true ∧ getI us e.v = some true) →
    List.Pairwise (fun a b => edgeEq a b = false) acc →
    ∃ m' us' acc', greedyLoop es m us acc = some (m', us', acc') ∧
      m'.length = n.toNat ∧ us'.length = n.toNat ∧
      (∀ i x, getI m' i = some x → x = -1 ∨ (0 ≤ x ∧ x < n)) ∧
      (∀ e ∈ acc', e ∈ acc ∨ e ∈ es) ∧
      (∀ e ∈ acc', getI us' e.u = some true ∧ getI us' e.v = some true) ∧
      List.Pairwise (fun a b => edgeEq a b = false) acc' := by
  intro es
  induction es with
  | nil =>
    intro m us acc _ hm hus hmval haccm haccp
    exact ⟨m, us, acc, rfl, hm, hus, hmval, fun e he => Or.inl he, haccm, haccp⟩
  | cons e es ih =>
    intro m us acc hb hm hus hmval haccm haccp
    obtain ⟨hu0, hu1, hv0, hv1⟩ := hb e (List.mem_cons_self _ _)
    have hute : e.u.toNat < us.length := by omega
    have hvte : e.v.toNat < us.length := by omega
    obtain ⟨bu, hbu⟩ := getI_of_inBounds hu0 hute
    obtain ⟨bv, hbv⟩ := getI_of_inBounds hv0 hvte
    by_cases hcase : bu = false ∧ bv = false
    · obtain ⟨rfl, rfl⟩ := hcase
      have hmu : e.u.toNat < m.length := by omega
      have hs1 := setI_some_of e.v hu0 hmu
      have hl1 : (m.set e.u.toNat e.v).length = m.length := List.length_set _ _ _
      have hs2 := setI_some_of e.u hv0
        (show e.v.toNat < (m.set e.u.toNat e.v).length by omega)
      have hs3 := setI_some_of true hu0 hute
      have hl3 : (us.set e.u.toNat true).length = us.length := List.length_set _ _ _
      have hs4 := setI_some_of true hv0
        (show e.v.toNat < (us.set e.u.toNat true).length by omega)
      have hmval2 : ∀ i x, getI ((m.set e.u.toNat e.v).set e.v.toNat e.u) i = some x →
          x = -1 ∨ (0 ≤ x ∧ x < n) := by
        intro i x hx
        by_cases hiv : i = e.v
        · rw [hiv, getI_setI_self hs2] at hx
          injection hx with hx
          exact Or.inr ⟨by omega, by omega⟩
        · rw [getI_setI_ne hs2 hiv] at hx
          by_cases hiu : i = e.u
          · rw [hiu, getI_setI_self hs1] at hx
            injection hx with hx
            exact Or.inr ⟨by omega, by omega⟩
          · rw [getI_setI_ne hs1 hiu] at hx
            exact hmval i x hx
      have haccm2 : ∀ e' ∈ acc ++ [e],
          getI ((us.set e.u.toNat true).set e.v.toNat true) e'.u = some true ∧
          getI ((us.set e.u.toNat true).set e.v.toNat true) e'.v = some true := by
        intro e' he'
        rcases List.mem_append.mp he' with hmem | hmem
        · obtain ⟨ha, hb2⟩ := haccm e' hmem
          exact ⟨getI_setI_true hs4 (getI_setI_true hs3 ha),
            getI_setI_true hs4 (getI_setI_true hs3 hb2)⟩
        · rw [List.mem_singleton] at hmem
          subst hmem
          exact ⟨getI_setI_true hs4 (getI_setI_self hs3), getI_setI_self hs4⟩
      have haccp2 : List.Pairwise (fun a b => edgeEq a b = false) (acc ++ [e]) := by
        rw [List.pairwise_append]
        refine ⟨haccp, List.pairwise_singleton _ _, ?_⟩
        intro a ha b hbm
        rw [List.mem_singleton] at hbm
        rw [hbm]
        by_contra hne
        have htrue : edgeEq a e = true := by
          cases hh : edgeEq a e
          · exact absurd hh hne
          · rfl
        obtain ⟨hau, hav⟩ := haccm a ha
        rcases edgeEq_true_iff.mp htrue with ⟨h1, _⟩ | ⟨h1, h2⟩
        · rw [h1] at hau
          have hcontra := hau.symm.trans hbu
          simp at hcontra
        · rw [h1] at hau
          have hcontra := hau.symm.trans hbv
          simp at hcontra
      obtain ⟨m', us', acc', hgl, p1, p2, p3, p4, p5, p6⟩ :=
        ih ((m.set e.u.toNat e.v).set e.v.toNat e.u)
          ((us.set e.u.toNat true).set e.v.toNat true) (acc ++ [e])
          (fun e' he' => hb e' (List.mem_cons_of_mem _ he'))
          (by rw [List.length_set, hl1]; exact hm)
          (by rw [List.length_set, hl3]; exact hus)
          hmval2 haccm2 haccp2
      refine ⟨m', us', acc', ?_, p1, p2, p3, ?_, p5, p6⟩
      · simp only [greedyLoop, Option.bind_eq_bind, hbu, Option.some_bind, hbv,
          Bool.not_false, Bool.and_self, if_true, hs1, hs2, hs3, hs4, hgl]
      · intro e' he'
        rcases p4 e' he' with hmem | hmem
        · rcases List.mem_append.mp hmem with h | h
          · exact Or.inl h
          · rw [List.mem_singleton] at h
            exact Or.inr (h ▸ List.mem_cons_self _ _)
        · exact Or.inr (List.mem_cons_of_mem _ hmem)
    · obtain ⟨m', us', acc', hgl, p1, p2, p3, p4, p5, p6⟩ :=
        ih m us acc (fun e' he' => hb e' (List.mem_cons_of_mem _ he'))
          hm hus hmval haccm haccp
      refine ⟨m', us', acc', ?_, p1, p2, p3, ?_, p5, p6⟩
      · have hcond : (!bu && !bv) = false := by
          revert hcase
          cases bu <;> cases bv <;> intro hcase
          · exact absurd ⟨rfl, rfl⟩ hcase
          · rfl
          · rfl
          · rfl
        simp only [greedyLoop, Option.bind_eq_bind, hbu, Option.some_bind, hbv,
          hcond, Bool.false_eq_true, if_false, hgl]
      · intro e' he'
        rcases p4 e' he' with h | h
        · exact Or.inl h
        · exact Or.inr (List.mem_cons_of_mem _ h)

/-! ## The BFS phase: every unmatched vertex is pre-visited, so `pathEnd`
can never be assigned and each phase ends without augmenting. -/

theorem initRootsLoop_spec {n : Int} {m : List Int} (hm : m.length = n.toNat) :
    ∀ (is : List Int) (vis : List Bool) (q : List Int),
    (∀ i ∈ is, 0 ≤ i ∧ i < n) →
    vis.length = n.toNat →
    ∃ vis' q', initRootsLoop m is vis q = some (vis', q') ∧
      vis'.length = n.toNat ∧
      q'.length ≤ q.length + is.length ∧
      (∀ x ∈ q', x ∈ q ∨ x ∈ is) ∧
      (∀ i : Int, getI vis i = some true → getI vis' i = some true) ∧
      (∀ i ∈ is, getI m i = some (-1) → getI vis' i = some true) := by
  intro is
  induction is with
  | nil =>
    intro vis q _ hvl
    exact ⟨vis, q, rfl, hvl, by simp, fun x hx => Or.inl hx, fun i h => h,
      fun i hi => absurd hi (List.not_mem_nil i)⟩
  | cons i0 is ih =>
    intro vis q hb hvl
    obtain ⟨h00, h01⟩ := hb i0 (List.mem_cons_self _ _)
    obtain ⟨mi, hmi⟩ := getI_of_inBounds h00 (show i0.toNat < m.length by omega)
    by_cases hmi1 : mi = -1
    · subst hmi1
      have hs := setI_some_of true h00 (show i0.toNat < vis.length by omega)
      obtain ⟨vis', q', hloop, c1, c2, c3, c4, c5⟩ :=
        ih (vis.set i0.toNat true) (q ++ [i0])
          (fun i hi => hb i (List.mem_cons_of_mem _ hi))
          (by rw [List.length_set]; exact hvl)
      refine ⟨vis', q', ?_, c1, ?_, ?_, ?_, ?_⟩
      · simp only [initRootsLoop, Option.bind_eq_bind, hmi, Option.some_bind,
          beq_self_eq_true, if_true, hs, hloop]
      · simp only [List.length_append, List.length_singleton, List.length_cons,
          List.length_nil] at c2 ⊢
        omega
      · intro x hx
        rcases c3 x hx with hmem | hmem
        · rcases List.mem_append.mp hmem with h | h
          · exact Or.inl h
          · rw [List.mem_singleton] at h
            exact Or.inr (h ▸ List.mem_cons_self _ _)
        · exact Or.inr (List.mem_cons_of_mem _ hmem)
      · intro i hi
        exact c4 i (getI_setI_true hs hi)
      · intro i hi hunm
        rcases List.mem_cons.mp hi with rfl | hmem
        · exact c4 i (getI_setI_self hs)
        · exact c5 i hmem hunm
    · have hc : (mi == -1) = false := beq_eq_false_iff_ne.mpr hmi1
      obtain ⟨vis', q', hloop, c1, c2, c3, c4, c5⟩ :=
        ih vis q (fun i hi => hb i (List.mem_cons_of_mem _ hi)) hvl
      refine ⟨vis', q', ?_, c1, ?_, ?_, c4, ?_⟩
      · simp only [initRootsLoop, Option.bind_eq_bind, hmi, Option.some_bind,
          hc, Bool.false_eq_true, if_false, hloop]
      · simp only [List.length_cons] at c2 ⊢
        omega
      · intro x hx
        rcases c3 x hx with h | h
        · exact Or.inl h
        · exact Or.inr (List.mem_cons_of_mem _ h)
      · intro i hi hunm
        rcases List.mem_cons.mp hi with rfl | hmem
        · rw [hmi] at hunm
          injection hunm with h6
          exact absurd h6 hmi1
        · exact c5 i hmem hunm

theorem bfsNeighbors_spec {n : Int} {m : List Int} (u : Int)
    (hm : m.length = n.toNat)
    (hmval : ∀ i x, getI m i = some x → x = -1 ∨ (0 ≤ x ∧ x < n)) :
    ∀ (vs : List Int) (st : BfsSt),
    (∀ x ∈ vs, 0 ≤ x ∧ x < n) →
    st.vis.length = n.toNat → st.par.length = n.toNat →
    (∀ x ∈ st.q, 0 ≤ x ∧ x < n) →
    (∀ i : Int, getI m i = some (-1) → getI st.vis i = some true) →
    st.pathEnd = -1 →
    ∃ st', bfsNeighbors m u vs st = some st' ∧
      st'.vis.length = n.toNat ∧ st'.par.length = n.toNat ∧
      (∀ x ∈ st'.q, 0 ≤ x ∧ x < n) ∧
      (∀ i : Int, getI m i = some (-1) → getI st'.vis i = some true) ∧
      st'.pathEnd = -1 ∧
      st'.q.length + countF st'.vis ≤ st.q.length + countF st.vis := by
  intro vs
  induction vs with
  | nil =>
    intro st _ h1 h2 h3 h4 h5
    exact ⟨st, rfl, h1, h2, h3, h4, h5, le_refl _⟩
  | cons v vs ih =>
    rintro ⟨vis, par, q, pe⟩ hvs h1 h2 h3 h4 h5
    obtain ⟨hv0, hv1⟩ := hvs v (List.mem_cons_self _ _)
    obtain ⟨b, hb⟩ := getI_of_inBounds hv0 (show v.toNat < vis.length by
      simp only at h1
      omega)
    simp only at h1 h2 h3 h4 h5
    cases b with
    | true =>
      obtain ⟨st', hloop, c1, c2, c3, c4, c5, c6⟩ :=
        ih ⟨vis, par, q, pe⟩ (fun x hx => hvs x (List.mem_cons_of_mem _ hx))
          h1 h2 h3 h4 h5
      refine ⟨st', ?_, c1, c2, c3, c4, c5, c6⟩
      simp only [bfsNeighbors, Option.bind_eq_bind, hb, Option.some_bind,
        eq_self_iff_true, if_true, hloop]
    | false =>
      have hsv := setI_some_of true hv0 (show v.toNat < vis.length by omega)
      have hsp := setI_some_of u hv0 (show v.toNat < par.length by omega)
      obtain ⟨mv, hmv⟩ := getI_of_inBounds hv0 (show v.toNat < m.length by omega)
      have hmvne : mv ≠ -1 := by
        intro hcon
        subst hcon
        have hvis := h4 v hmv
        rw [hb] at hvis
        injection hvis with h6
        exact Bool.false_ne_true h6
      have hbeq : (mv == -1) = false := beq_eq_false_iff_ne.mpr hmvne
      have hmvb : 0 ≤ mv ∧ mv < n := by
        rcases hmval v mv hmv with h | h
        · exact absurd h hmvne
        · exact h
      have hsv2 := setI_some_of true hmvb.1
        (show mv.toNat < (vis.set v.toNat true).length by
          rw [List.length_set]; omega)
      have hsp2 := setI_some_of v hmvb.1
        (show mv.toNat < (par.set v.toNat u).length by
          rw [List.length_set]; omega)
      obtain ⟨st', hloop, c1, c2, c3, c4, c5, c6⟩ :=
        ih ⟨(vis.set v.toNat true).set mv.toNat true,
            (par.set v.toNat u).set mv.toNat v, q ++ [mv], pe⟩
          (fun x hx => hvs x (List.mem_cons_of_mem _ hx))
          (by simp only; rw [List.length_set, List.length_set]; exact h1)
          (by simp only; rw [List.length_set, List.length_set]; exact h2)
          (by
            intro x hx
            simp only at hx
            rcases List.mem_append.mp hx with h | h
            · exact h3 x h
            · rw [List.mem_singleton] at h
              exact h ▸ hmvb)
          (by
            intro i hi
            simp only
            exact getI_setI_true hsv2 (getI_setI_true hsv (h4 i hi)))
          h5
      refine ⟨st', ?_, c1, c2, c3, c4, c5, ?_⟩
      · simp only [bfsNeighbors, Option.bind_eq_bind, hb, Option.some_bind,
          Bool.false_eq_true, if_false, hsv, hsp, hmv, hbeq, hsv2, hsp2, hloop]
      · have hfalse : vis.get? v.toNat = some false := by
          rw [← getI_pos hv0]
          exact hb
        have hlt := countF_set_true_lt vis v.toNat hfalse
        have hle2 := countF_set_true_le (vis.set v.toNat true) mv.toNat
        simp only [List.length_append, List.length_singleton] at c6
        simp only [List.length_cons]
        omega

theorem bfsLoop_spec {n : Int} {m : List Int} {adj : List (List Int)}
    (hm : m.length = n.toNat)
    (hmval : ∀ i x, getI m i = some x → x = -1 ∨ (0 ≤ x ∧ x < n))
    (hal : adj.length = n.toNat)
    (haval : ∀ (k : Nat), k < n.toNat → ∀ x ∈ adj.getD k [], 0 ≤ x ∧ x < n) :
    ∀ (fuel : Nat) (st : BfsSt),
    st.q.length + countF st.vis < fuel →
    st.vis.length = n.toNat → st.par.length = n.toNat →
    (∀ x ∈ st.q, 0 ≤ x ∧ x < n) →
    (∀ i : Int, getI m i = some (-1) → getI st.vis i = some true) →
    st.pathEnd = -1 →
    ∃ st', bfsLoop m adj fuel st = some st' ∧ st'.pathEnd = -1 := by
  intro fuel
  induction fuel with
  | zero =>
    intro st hmeas h1 h2 h3 h4 h5
    exact absurd hmeas (Nat.not_lt_zero _)
  | succ fuel ih =>
    rintro ⟨vis, par, q, pe⟩ hmeas h1 h2 h3 h4 h5
    simp only at hmeas h1 h2 h3 h4 h5
    subst h5
    cases q with
    | nil =>
      refine ⟨⟨vis, par, [], -1⟩, ?_, rfl⟩
      simp only [bfsLoop]
    | cons u rest =>
      obtain ⟨hu0, hu1⟩ := h3 u (List.mem_cons_self _ _)
      obtain ⟨nbrs, hnbrs⟩ := getI_of_inBounds hu0 (show u.toNat < adj.length by omega)
      have hnbrsval : ∀ x ∈ nbrs, 0 ≤ x ∧ x < n := by
        have hgd := getI_getD [] hnbrs
        intro x hx
        exact haval u.toNat (by omega) x (by rw [hgd]; exact hx)
      obtain ⟨st1, hN, c1, c2, c3, c4, c5, c6⟩ :=
        bfsNeighbors_spec u hm hmval nbrs ⟨vis, par, rest, -1⟩ hnbrsval
          h1 h2 (fun x hx => h3 x (List.mem_cons_of_mem _ hx)) h4 rfl
      simp only at c6
      obtain ⟨st', hloop, hpe⟩ := ih st1
        (by
          simp only [List.length_cons] at hmeas
          omega)
        c1 c2 c3 c4 c5
      refine ⟨st', ?_, hpe⟩
      simp only [bfsLoop, bne_self_eq_false, Bool.false_eq_true, if_false,
        Option.bind_eq_bind, hnbrs, Option.some_bind, hN, hloop]

theorem findMaxMatching_spec {nv : Int} {es : List Edge} {g : MinEdgeCover}
    (h : mkMinEdgeCover nv es = .ok g) :
    ∃ matching, findMaxMatching g = some matching ∧
      (∀ e ∈ matching, e ∈ es) ∧
      List.Pairwise (fun a b => edgeEq a b = false) matching := by
  obtain ⟨hgn, hge, hnpos, hal, hesb, hmemiff, hnonemp⟩ := mk_ok_spec h
  obtain ⟨m', us', acc', hgl, p1, p2, p3, p4, p5, p6⟩ :=
    greedyLoop_spec es (List.replicate nv.toNat (-1)) (List.replicate nv.toNat false) []
      hesb (List.length_replicate _ _) (List.length_replicate _ _)
      (fun i x hx => by
        obtain ⟨h0, h1⟩ := getI_bounds hx
        rw [List.length_replicate] at h1
        rw [getI_replicate h0 h1] at hx
        injection hx with hx
        exact Or.inl hx.symm)
      (fun e he => absurd he (List.not_mem_nil e))
      List.Pairwise.nil
  have hadjval : ∀ (k : Nat), k < nv.toNat → ∀ x ∈ g.adj.getD k [], 0 ≤ x ∧ x < nv := by
    intro k hk x hx
    obtain ⟨e, he, hp⟩ := (hmemiff k hk x).mp hx
    obtain ⟨a, b, c, d⟩ := hesb e he
    rcases hp with ⟨_, rfl⟩ | ⟨_, rfl⟩
    · exact ⟨by omega, by omega⟩
    · exact ⟨by omega, by omega⟩
  obtain ⟨vis0, q0, hroots, r1, r2, r3, r4, r5⟩ :=
    initRootsLoop_spec p1 (intRange nv) (List.replicate nv.toNat false) []
      (fun i hi => mem_intRange.mp hi) (List.length_replicate _ _)
  have hq0b : ∀ x ∈ q0, 0 ≤ x ∧ x < nv := by
    intro x hx
    rcases r3 x hx with hmem | hmem
    · exact absurd hmem (List.not_mem_nil x)
    · exact mem_intRange.mp hmem
  have hunm0 : ∀ i : Int, getI m' i = some (-1) → getI vis0 i = some true := by
    intro i hi
    obtain ⟨h0, h1⟩ := getI_bounds hi
    rw [p1] at h1
    exact r5 i (mem_intRange.mpr ⟨h0, by omega⟩) hi
  obtain ⟨stf, hbfs, hpef⟩ :=
    bfsLoop_spec p1 p3 hal hadjval (2 * nv.toNat + 1)
      ⟨vis0, List.replicate nv.toNat (-1), q0, -1⟩
      (by
        simp only
        have hc := countF_le_length vis0
        have hq0 := r2
        rw [intRange_length] at hq0
        simp only [List.length_nil] at hq0
        omega)
      r1 (List.length_replicate _ _) hq0b hunm0 rfl
  refine ⟨acc', ?_,
    fun e he => (p4 e he).resolve_left (fun hc => absurd hc (List.not_mem_nil e)), p6⟩
  simp only [findMaxMatching, hge, hgn, Option.bind_eq_bind, hgl, Option.some_bind,
    improveLoop, hroots, hbfs, hpef, beq_self_eq_true, eq_self_iff_true, if_true]

/-! ## The cover-completion loop of `solve` -/

theorem findIncident_some {i : Int} : ∀ {es : List Edge} {e : Edge},
    findIncident i es = some e → e ∈ es ∧ (e.u = i ∨ e.v = i) := by
  intro es
  induction es with
  | nil =>
    intro e h
    cases h
  | cons e0 es ih =>
    intro e h
    unfold findIncident at h
    split at h
    · rename_i hc
      injection h with h
      subst h
      simp only [Bool.or_eq_true, beq_iff_eq] at hc
      exact ⟨List.mem_cons_self _ _, hc⟩
    · obtain ⟨hm, hp⟩ := ih h
      exact ⟨List.mem_cons_of_mem _ hm, hp⟩

theorem findIncident_of_exists {i : Int} : ∀ {es : List Edge},
    (∃ e ∈ es, e.u = i ∨ e.v = i) → ∃ e, findIncident i es = some e := by
  intro es
  induction es with
  | nil =>
    rintro ⟨e, he, _⟩
    exact absurd he (List.not_mem_nil e)
  | cons e0 es ih =>
    rintro ⟨e, he, hp⟩
    unfold findIncident
    by_cases hc : (e0.u == i || e0.v == i) = true
    · rw [if_pos hc]
      exact ⟨e0, rfl⟩
    · rw [if_neg hc]
      apply ih
      rcases List.mem_cons.mp he with rfl | hm
      · exfalso
        simp only [Bool.or_eq_true, beq_iff_eq, not_or] at hc
        rcases hp with hp | hp
        · exact hc.1 hp
        · exact hc.2 hp
      · exact ⟨e, hm, hp⟩

theorem completionLoop_spec {n : Int} {E : List Edge}
    (hEb : ∀ e ∈ E, 0 ≤ e.u ∧ e.u < n ∧ 0 ≤ e.v ∧ e.v < n)
    (hinc : ∀ i : Int, 0 ≤ i → i < n → ∃ e ∈ E, e.u = i ∨ e.v = i) :
    ∀ (is : List Int) (res : List Edge) (cov : List Bool),
    (∀ i ∈ is, 0 ≤ i ∧ i < n) →
    cov.length = n.toNat →
    (∀ e ∈ res, e ∈ E) →
    (∀ e ∈ res, getI cov e.u = some true ∧ getI cov e.v = some true) →
    (∀ i : Int, getI cov i = some true → ∃ e ∈ res, e.u = i ∨ e.v = i) →
    List.Pairwise (fun a b => edgeEq a b = false) res →
    ∃ res' cov', completionLoop E is res cov = some (res', cov') ∧
      cov'.length = n.toNat ∧
      (∀ e ∈ res', e ∈ E) ∧
      (∀ e ∈ res', getI cov' e.u = some true ∧ getI cov' e.v = some true) ∧
      (∀ i : Int, getI cov' i = some true → ∃ e ∈ res', e.u = i ∨ e.v = i) ∧
      List.Pairwise (fun a b => edgeEq a b = false) res' ∧
      (∀ i : Int, getI cov i = some true → getI cov' i = some true) ∧
      (∀ i ∈ is, getI cov' i = some true) := by
  intro is
  induction is with
  | nil =>
    intro res cov _ hcl hresE hmarks hprov hpw
    exact ⟨res, cov, rfl, hcl, hresE, hmarks, hprov, hpw, fun i hi => hi,
      fun i hi => absurd hi (List.not_mem_nil i)⟩
  | cons i is ih =>
    intro res cov hisb hcl hresE hmarks hprov hpw
    obtain ⟨hi0, hi1⟩ := hisb i (List.mem_cons_self _ _)
    obtain ⟨c, hc⟩ := getI_of_inBounds hi0 (show i.toNat < cov.length by omega)
    cases c with
    | true =>
      obtain ⟨res', cov', hloop, d1, d2, d3, d4, d5, d6, d7⟩ :=
        ih res cov (fun j hj => hisb j (List.mem_cons_of_mem _ hj))
          hcl hresE hmarks hprov hpw
      refine ⟨res', cov', ?_, d1, d2, d3, d4, d5, d6, ?_⟩
      · simp only [completionLoop, completionStep, Option.bind_eq_bind, hc,
          Option.some_bind, eq_self_iff_true, if_true, hloop]
      · intro j hj
        rcases List.mem_cons.mp hj with rfl | hmem
        · exact d6 j hc
        · exact d7 j hmem
    | false =>
      obtain ⟨e, hfind⟩ := findIncident_of_exists (hinc i hi0 hi1)
      obtain ⟨heE, hep⟩ := findIncident_some hfind
      obtain ⟨heu0, heu1, hev0, hev1⟩ := hEb e heE
      have hs1 := setI_some_of true hi0 (show i.toNat < cov.length by omega)
      have hs2 := setI_some_of true heu0
        (show e.u.toNat < (cov.set i.toNat true).length by
          rw [List.length_set]; omega)
      have hs3 := setI_some_of true hev0
        (show e.v.toNat < ((cov.set i.toNat true).set e.u.toNat true).length by
          rw [List.length_set, List.length_set]; omega)
      have hmarks2 : ∀ e' ∈ res ++ [e],
          getI (((cov.set i.toNat true).set e.u.toNat true).set e.v.toNat true) e'.u
            = some true ∧
          getI (((cov.set i.toNat true).set e.u.toNat true).set e.v.toNat true) e'.v
            = some true := by
        intro e' he'
        rcases List.mem_append.mp he' with hmem | hmem
        · obtain ⟨ha, hb⟩ := hmarks e' hmem
          exact ⟨getI_setI_true hs3 (getI_setI_true hs2 (getI_setI_true hs1 ha)),
            getI_setI_true hs3 (getI_setI_true hs2 (getI_setI_true hs1 hb))⟩
        · rw [List.mem_singleton] at hmem
          subst hmem
          exact ⟨getI_setI_true hs3 (getI_setI_self hs2), getI_setI_self hs3⟩
      have hprov2 : ∀ j : Int,
          getI (((cov.set i.toNat true).set e.u.toNat true).set e.v.toNat true) j
            = some true → ∃ e' ∈ res ++ [e], e'.u = j ∨ e'.v = j := by
        intro j hj
        have hesing : e ∈ res ++ [e] := List.mem_append.mpr (Or.inr (List.mem_singleton.mpr rfl))
        by_cases hjv : j = e.v
        · exact ⟨e, hesing, Or.inr hjv.symm⟩
        · rw [getI_setI_ne hs3 hjv] at hj
          by_cases hju : j = e.u
          · exact ⟨e, hesing, Or.inl hju.symm⟩
          · rw [getI_setI_ne hs2 hju] at hj
            by_cases hji : j = i
            · subst hji
              rcases hep with hp | hp
              · exact ⟨e, hesing, Or.inl hp⟩
              · exact ⟨e, hesing, Or.inr hp⟩
            · rw [getI_setI_ne hs1 hji] at hj
              obtain ⟨e', he', hp⟩ := hprov j hj
              exact ⟨e', List.mem_append.mpr (Or.inl he'), hp⟩
      have hpw2 : List.Pairwise (fun a b => edgeEq a b = false) (res ++ [e]) := by
        rw [List.pairwise_append]
        refine ⟨hpw, List.pairwise_singleton _ _, ?_⟩
        intro a ha b hbm
        rw [List.mem_singleton] at hbm
        rw [hbm]
        by_contra hne
        have htrue : edgeEq a e = true := by
          cases hh : edgeEq a e
          · exact absurd hh hne
          · rfl
        obtain ⟨hau, hav⟩ := hmarks a ha
        have hcontra : getI cov i = some true := by
          rcases edgeEq_true_iff.mp htrue with ⟨h1, h2⟩ | ⟨h1, h2⟩ <;>
            rcases hep with hp | hp
          · rw [← hp, ← h1]
            exact hau
          · rw [← hp, ← h2]
            exact hav
          · rw [← hp, ← h2]
            exact hav
          · rw [← hp, ← h1]
            exact hau
        rw [hc] at hcontra
        injection hcontra with h6
        exact Bool.false_ne_true h6
      obtain ⟨res', cov', hloop, d1, d2, d3, d4, d5, d6, d7⟩ :=
        ih (res ++ [e]) (((cov.set i.toNat true).set e.u.toNat true).set e.v.toNat true)
          (fun j hj => hisb j (List.mem_cons_of_mem _ hj))
          (by rw [List.length_set, List.length_set, List.length_set]; exact hcl)
          (by
            intro e' he'
            rcases List.mem_append.mp he' with hmem | hmem
            · exact hresE e' hmem
            · rw [List.mem_singleton] at hmem
              exact hmem ▸ heE)
          hmarks2 hprov2 hpw2
      refine ⟨res', cov', ?_, d1, d2, d3, d4, d5, ?_, ?_⟩
      · simp only [completionLoop, completionStep, Option.bind_eq_bind, hc,
          Option.some_bind, Bool.false_eq_true, if_false, hfind, hs1, hs2, hs3, hloop]
      · intro j hj
        exact d6 j (getI_setI_true hs3 (getI_setI_true hs2 (getI_setI_true hs1 hj)))
      · intro j hj
        rcases List.mem_cons.mp hj with rfl | hmem
        · exact d6 j (getI_setI_true hs3 (getI_setI_true hs2 (getI_setI_self hs1)))
        · exact d7 j hmem

theorem solve_spec {nv : Int} {es : List Edge} {g : MinEdgeCover}
    (h : mkMinEdgeCover nv es = .ok g) :
    ∃ res, solve g = some res ∧
      isEdgeCover nv res = some true ∧
      List.Pairwise (fun a b => edgeEq a b = false) res ∧
      (∀ e ∈ res, e ∈ es) := by
  obtain ⟨hgn, hge, hnpos, hal, hesb, hmemiff, hnonemp⟩ := mk_ok_spec h
  obtain ⟨matching, hfm, hsub, hpw⟩ := findMaxMatching_spec h
  obtain ⟨cov0, hml, hclen, hmono0, hmarks0, hprov0⟩ :=
    markLoop_spec matching (List.replicate nv.toNat false)
      (fun e he => by
        obtain ⟨a, b, c, d⟩ := hesb e (hsub e he)
        rw [List.length_replicate]
        exact ⟨a, by omega, c, by omega⟩)
  rw [List.length_replicate] at hclen
  have hinc : ∀ i : Int, 0 ≤ i → i < nv → ∃ e ∈ es, e.u = i ∨ e.v = i := by
    intro i h0 h1
    have hk : i.toNat < nv.toNat := by omega
    have hne := hnonemp i.toNat hk
    rcases hx : g.adj.getD i.toNat [] with _ | ⟨x, xs⟩
    · exact absurd hx hne
    · have hxm : x ∈ g.adj.getD i.toNat [] := by
        rw [hx]
        exact List.mem_cons_self _ _
      obtain ⟨e, he, hp⟩ := (hmemiff i.toNat hk x).mp hxm
      have hik : ((i.toNat : Nat) : Int) = i := by omega
      rcases hp with ⟨hu, _⟩ | ⟨hv, _⟩
      · exact ⟨e, he, Or.inl (by rw [hu, hik])⟩
      · exact ⟨e, he, Or.inr (by rw [hv, hik])⟩
  have hprovb : ∀ i : Int, getI cov0 i = some true →
      ∃ e ∈ matching, e.u = i ∨ e.v = i := by
    intro i hi
    rcases hprov0 i hi with hbase | hex
    · obtain ⟨h0, h1⟩ := getI_bounds hbase
      rw [List.length_replicate] at h1
      rw [getI_replicate h0 h1] at hbase
      injection hbase with h6
      exact absurd h6 Bool.false_ne_true
    · exact hex
  obtain ⟨res, cov', hcomp, d1, d2, d3, d4, d5, d6, d7⟩ :=
    completionLoop_spec hesb hinc (intRange nv) matching cov0
      (fun i hi => mem_intRange.mp hi) hclen hsub hmarks0 hprovb hpw
  refine ⟨res, ?_, ?_, d5, d2⟩
  · simp only [solve, hgn, hge, Option.bind_eq_bind, hfm, Option.some_bind, hml, hcomp]
  · rw [isEdgeCover_true_iff nv res (fun e he => hesb e (d2 e he))]
    intro v hv
    exact d4 v (d7 v hv)

/-! ## Claim theorems about `solve` -/

/-- A Boolean duplicate check under the undirected edge equality. -/
def noDupEdges : List Edge → Bool
  | [] => true
  | e :: es => (es.all (fun m => !(edgeEq e m))) && noDupEdges es

theorem noDupEdges_of_pairwise : ∀ {l : List Edge},
    List.Pairwise (fun a b => edgeEq a b = false) l → noDupEdges l = true := by
  intro l
  induction l with
  | nil =>
    intro _
    rfl
  | cons e es ih =>
    intro hp
    rw [List.pairwise_cons] at hp
    obtain ⟨h1, h2⟩ := hp
    simp only [noDupEdges, Bool.and_eq_true, List.all_eq_true]
    exact ⟨fun x hx => by rw [h1 x hx]; rfl, ih h2⟩

/-- The triangle graph of the examples, as constructed by the graph.hpp
constructor. -/
def triEdges : List Edge := [⟨0, 1⟩, ⟨1, 2⟩, ⟨2, 0⟩]

/-- The `MinEdgeCover` object the constructor builds for the triangle. -/
def triG : MinEdgeCover := ⟨3, triEdges, [[1, 2], [0, 2], [1, 0]]⟩

/-- C3: on every validly constructed graph, `solve()` produces a set that
`isEdgeCover` certifies: every vertex in `[0, n)` is an endpoint of some edge
of the returned set. -/
theorem solve_isEdgeCover (n : Int) (es : List Edge) (g : MinEdgeCover)
    (h : mkMinEdgeCover n es = .ok g) :
    Option.bind (solve g) (isEdgeCover g.n) = some true := by
  obtain ⟨res, hs, hic, _, _⟩ := solve_spec h
  obtain ⟨hgn, _⟩ := mk_ok_spec h
  rw [hs, Option.some_bind, hgn]
  exact hic

/-- Witness for C3: the triangle. -/
theorem solve_isEdgeCover_witness :
    Option.bind (solve triG) (isEdgeCover triG.n) = some true :=
  solve_isEdgeCover 3 triEdges triG (by rfl)

/-- C6: once construction has succeeded, `solve` and `isEdgeCover` evaluate
without any out-of-range access or fuel exhaustion: both return `some`. -/
theorem solve_total (n : Int) (es : List Edge) (g : MinEdgeCover)
    (h : mkMinEdgeCover n es = .ok g) :
    (solve g).isSome = true ∧ (Option.bind (solve g) (isEdgeCover g.n)).isSome = true := by
  obtain ⟨res, hs, hic, _, _⟩ := solve_spec h
  obtain ⟨hgn, _⟩ := mk_ok_spec h
  rw [hs, Option.some_bind, hgn, hic]
  exact ⟨rfl, rfl⟩

/-- Witness for C6: the triangle. -/
theorem solve_total_witness :
    (solve triG).isSome = true ∧ (Option.bind (solve triG) (isEdgeCover triG.n)).isSome = true :=
  solve_total 3 triEdges triG (by rfl)

/-- C8: on every validly constructed graph the edge set returned by `solve()`
contains no two edges equal under the undirected `Edge::operator==`. -/
theorem solve_noDup (n : Int) (es : List Edge) (g : MinEdgeCover)
    (h : mkMinEdgeCover n es = .ok g) :
    (solve g).map noDupEdges = some true := by
  obtain ⟨res, hs, _, hpw, _⟩ := solve_spec h
  rw [hs, Option.map_some', noDupEdges_of_pairwise hpw]

/-- Witness for C8: the triangle. -/
theorem solve_noDup_witness : (solve triG).map noDupEdges = some true :=
  solve_noDup 3 triEdges triG (by rfl)

/-! ## Termination of the main.cpp DFS matcher -/

theorem countF_replicate_false (k : Nat) : countF (List.replicate k false) = k := by
  induction k with
  | zero => rfl
  | succ k ih =>
    simp [List.replicate_succ, countF, ih]
    omega

theorem dfsGo_spec {V : Int} {F : Nat}
    {rec : Int → List Int → List Bool → Option (Bool × List Int × List Bool)}
    {v : Int} (hv0 : 0 ≤ v) (hv1 : v < V)
    (hrec : ∀ (w : Int) (m : List Int) (us : List Bool),
      0 ≤ w → w < V → m.length = V.toNat → us.length = V.toNat →
      (∀ i x, getI m i = some x → x = -1 ∨ (0 ≤ x ∧ x < V)) →
      countF us < F →
      ∃ r, rec w m us = some r ∧ r.2.1.length = V.toNat ∧ r.2.2.length = V.toNat ∧
        (∀ i x, getI r.2.1 i = some x → x = -1 ∨ (0 ≤ x ∧ x < V)) ∧
        countF r.2.2 ≤ countF us) :
    ∀ (vs : List Int) (m : List Int) (us : List Bool),
    (∀ x ∈ vs, 0 ≤ x ∧ x < V) →
    m.length = V.toNat → us.length = V.toNat →
    (∀ i x, getI m i = some x → x = -1 ∨ (0 ≤ x ∧ x < V)) →
    countF us ≤ F →
    ∃ r, dfsGo rec v vs m us = some r ∧ r.2.1.length = V.toNat ∧
      r.2.2.length = V.toNat ∧
      (∀ i x, getI r.2.1 i = some x → x = -1 ∨ (0 ≤ x ∧ x < V)) ∧
      countF r.2.2 ≤ countF us := by
  intro vs
  induction vs with
  | nil =>
    intro m us _ hm hus hmval _
    exact ⟨(false, m, us), rfl, hm, hus, hmval, le_refl _⟩
  | cons t rest ih =>
    intro m us hvs hm hus hmval hcf
    obtain ⟨ht0, ht1⟩ := hvs t (List.mem_cons_self _ _)
    obtain ⟨b, hb⟩ := getI_of_inBounds ht0 (show t.toNat < us.length by omega)
    cases b with
    | true =>
      obtain ⟨r, hgo, q1, q2, q3, q4⟩ :=
        ih m us (fun x hx => hvs x (List.mem_cons_of_mem _ hx)) hm hus hmval hcf
      refine ⟨r, ?_, q1, q2, q3, q4⟩
      simp only [dfsGo, Option.bind_eq_bind, hb, Option.some_bind,
        eq_self_iff_true, if_true, hgo]
    | false =>
      have hs1 := setI_some_of true ht0 (show t.toNat < us.length by omega)
      have hfalse : us.get? t.toNat = some false := by
        rw [← getI_pos ht0]
        exact hb
      have hlt := countF_set_true_lt us t.toNat hfalse
      obtain ⟨mt, hmt⟩ := getI_of_inBounds ht0 (show t.toNat < m.length by omega)
      cases hbeq : (mt == -1) with
      | true =>
        have hmt1 : mt = -1 := beq_iff_eq.mp hbeq
        have hm1 := setI_some_of v ht0 (show t.toNat < m.length by omega)
        have hm2 := setI_some_of t hv0
          (show v.toNat < (m.set t.toNat v).length by rw [List.length_set]; omega)
        refine ⟨(true, (m.set t.toNat v).set v.toNat t, us.set t.toNat true), ?_,
          ?_, ?_, ?_, ?_⟩
        · simp only [dfsGo, Option.bind_eq_bind, hb, Option.some_bind,
            Bool.false_eq_true, if_false, hs1, hmt, hbeq, eq_self_iff_true,
            if_true, hm1, hm2]
        · rw [List.length_set, List.length_set]
          exact hm
        · rw [List.length_set]
          exact hus
        · intro i x hx
          by_cases hiv : i = v
          · rw [hiv, getI_setI_self hm2] at hx
            injection hx with hx
            exact Or.inr ⟨by omega, by omega⟩
          · rw [getI_setI_ne hm2 hiv] at hx
            by_cases hit : i = t
            · rw [hit, getI_setI_self hm1] at hx
              injection hx with hx
              exact Or.inr ⟨by omega, by omega⟩
            · rw [getI_setI_ne hm1 hit] at hx
              exact hmval i x hx
        · exact Nat.le_of_lt hlt
      | false =>
        have hmtne : mt ≠ -1 := by
          intro hcon
          rw [hcon] at hbeq
          rw [beq_self_eq_true] at hbeq
          cases hbeq
        have hmtb : 0 ≤ mt ∧ mt < V := by
          rcases hmval t mt hmt with h | h
          · exact absurd h hmtne
          · exact h
        obtain ⟨r0, hrec0, q1, q2, q3, q4⟩ :=
          hrec mt m (us.set t.toNat true) hmtb.1 hmtb.2 hm
            (by rw [List.length_set]; exact hus) hmval (by omega)
        cases hb2 : r0.1 with
        | true =>
          have hm1 := setI_some_of v ht0 (show t.toNat < r0.2.1.length by omega)
          have hm2 := setI_some_of t hv0
            (show v.toNat < (r0.2.1.set t.toNat v).length by
              rw [List.length_set]; omega)
          refine ⟨(true, (r0.2.1.set t.toNat v).set v.toNat t, r0.2.2), ?_,
            ?_, q2, ?_, ?_⟩
          · simp only [dfsGo, Option.bind_eq_bind, hb, Option.some_bind,
              Bool.false_eq_true, if_false, hs1, hmt, hbeq, hrec0, hb2,
              eq_self_iff_true, if_true, hm1, hm2]
          · rw [List.length_set, List.length_set]
            exact q1
          · intro i x hx
            by_cases hiv : i = v
            · rw [hiv, getI_setI_self hm2] at hx
              injection hx with hx
              exact Or.inr ⟨by omega, by omega⟩
            · rw [getI_setI_ne hm2 hiv] at hx
              by_cases hit : i = t
              · rw [hit, getI_setI_self hm1] at hx
                injection hx with hx
                exact Or.inr ⟨by omega, by omega⟩
              · rw [getI_setI_ne hm1 hit] at hx
                exact q3 i x hx
          · show countF r0.2.2 ≤ countF us
            omega
        | false =>
          obtain ⟨r, hgo, w1, w2, w3, w4⟩ :=
            ih r0.2.1 r0.2.2 (fun x hx => hvs x (List.mem_cons_of_mem _ hx))
              q1 q2 q3 (by omega)
          refine ⟨r, ?_, w1, w2, w3, ?_⟩
          · simp only [dfsGo, Option.bind_eq_bind, hb, Option.some_bind,
              Bool.false_eq_true, if_false, hs1, hmt, hbeq, hrec0, hb2, hgo]
          · omega

theorem dfs_spec {g : GraphM}
    (hal : g.adj.length = g.V.toNat)
    (haval : ∀ (k : Nat), k < g.V.toNat → ∀ x ∈ g.adj.getD k [], 0 ≤ x ∧ x < g.V) :
    ∀ (fuel : Nat) (v : Int) (m : List Int) (us : List Bool),
    0 ≤ v → v < g.V → m.length = g.V.toNat → us.length = g.V.toNat →
    (∀ i x, getI m i = some x → x = -1 ∨ (0 ≤ x ∧ x < g.V)) →
    countF us < fuel →
    ∃ r, dfs g fuel v m us = some r ∧ r.2.1.length = g.V.toNat ∧
      r.2.2.length = g.V.toNat ∧
      (∀ i x, getI r.2.1 i = some x → x = -1 ∨ (0 ≤ x ∧ x < g.V)) ∧
      countF r.2.2 ≤ countF us := by
  intro fuel
  induction fuel with
  | zero =>
    intro v m us _ _ _ _ _ hcf
    exact absurd hcf (Nat.not_lt_zero _)
  | succ fuel ih =>
    intro v m us hv0 hv1 hm hus hmval hcf
    obtain ⟨nbrs, hnbrs⟩ := getI_of_inBounds hv0 (show v.toNat < g.adj.length by omega)
    have hnval : ∀ x ∈ nbrs, 0 ≤ x ∧ x < g.V := by
      have hgd := getI_getD [] hnbrs
      intro x hx
      exact haval v.toNat (by omega) x (by rw [hgd]; exact hx)
    obtain ⟨r, hgo, q1, q2, q3, q4⟩ :=
      dfsGo_spec hv0 hv1
        (fun w m1 us1 hw0 hw1 hm1 hus1 hmval1 hcf1 =>
          ih w m1 us1 hw0 hw1 hm1 hus1 hmval1 hcf1)
        nbrs m us hnval hm hus hmval (by omega)
    refine ⟨r, ?_, q1, q2, q3, q4⟩
    simp only [dfs, Option.bind_eq_bind, hnbrs, Option.some_bind, hgo]

theorem kuhnLoop_spec {g : GraphM}
    (hal : g.adj.length = g.V.toNat)
    (haval : ∀ (k : Nat), k < g.V.toNat → ∀ x ∈ g.adj.getD k [], 0 ≤ x ∧ x < g.V) :
    ∀ (is : List Int) (m : List Int),
    (∀ i ∈ is, 0 ≤ i ∧ i < g.V) →
    m.length = g.V.toNat →
    (∀ i x, getI m i = some x → x = -1 ∨ (0 ≤ x ∧ x < g.V)) →
    ∃ m', kuhnLoop g is m = some m' := by
  intro is
  induction is with
  | nil =>
    intro m _ _ _
    exact ⟨m, rfl⟩
  | cons v vs ih =>
    intro m hb hm hmval
    obtain ⟨hv0, hv1⟩ := hb v (List.mem_cons_self _ _)
    obtain ⟨mv, hmv⟩ := getI_of_inBounds hv0 (show v.toNat < m.length by omega)
    by_cases hc : mv = -1
    · subst hc
      obtain ⟨r, hdfs, q1, q2, q3, q4⟩ :=
        dfs_spec hal haval (g.V.toNat + 1) v m (List.replicate g.V.toNat false)
          hv0 hv1 hm (List.length_replicate _ _) hmval
          (by rw [countF_replicate_false]; omega)
      obtain ⟨m', hk⟩ := ih r.2.1 (fun i hi => hb i (List.mem_cons_of_mem _ hi)) q1 q3
      refine ⟨m', ?_⟩
      simp only [kuhnLoop, Option.bind_eq_bind, hmv, Option.some_bind,
        beq_self_eq_true, if_true, hdfs, hk]
    · have hbeq : (mv == -1) = false := beq_eq_false_iff_ne.mpr hc
      obtain ⟨m', hk⟩ := ih m (fun i hi => hb i (List.mem_cons_of_mem _ hi)) hm hmval
      refine ⟨m', ?_⟩
      simp only [kuhnLoop, Option.bind_eq_bind, hmv, Option.some_bind,
        hbeq, Bool.false_eq_true, if_false, hk]

theorem mkGraphM_fold {V : Int} : ∀ (ps : List (Int × Int)) (g0 : GraphM),
    g0.V = V → g0.adj.length = V.toNat →
    (∀ (k : Nat), k < V.toNat → ∀ x ∈ g0.adj.getD k [], 0 ≤ x ∧ x < V) →
    (∀ p ∈ ps, 0 ≤ p.1 ∧ p.1 < V ∧ 0 ≤ p.2 ∧ p.2 < V) →
    (List.foldl (fun g p => addEdge g p.1 p.2) g0 ps).V = V ∧
    (List.foldl (fun g p => addEdge g p.1 p.2) g0 ps).adj.length = V.toNat ∧
    (∀ (k : Nat), k < V.toNat →
      ∀ x ∈ (List.foldl (fun g p => addEdge g p.1 p.2) g0 ps).adj.getD k [],
        0 ≤ x ∧ x < V) := by
  intro ps
  induction ps with
  | nil =>
    intro g0 h1 h2 h3 _
    exact ⟨h1, h2, h3⟩
  | cons p ps ih =>
    intro g0 h1 h2 h3 hb
    obtain ⟨hp1, hp2, hp3, hp4⟩ := hb p (List.mem_cons_self _ _)
    rw [List.foldl_cons]
    apply ih (addEdge g0 p.1 p.2)
    · exact h1
    · show (adjPush (adjPush g0.adj p.1 p.2) p.2 p.1).length = V.toNat
      rw [adjPush_length, adjPush_length]
      exact h2
    · intro k hk x hx
      have hmem := (mem_adjPush2 (e := ⟨p.1, p.2⟩) hp1 hp2 hp3 hp4 h2).mp hx
      rcases hmem with hm | ⟨_, hc⟩ | ⟨_, hc⟩
      · exact h3 k hk x hm
      · have hc2 : p.2 = x := hc
        exact ⟨by omega, by omega⟩
      · have hc2 : p.1 = x := hc
        exact ⟨by omega, by omega⟩
    · exact fun q hq => hb q (List.mem_cons_of_mem _ hq)

theorem findMaxMatchingM_spec {g : GraphM}
    (hal : g.adj.length = g.V.toNat)
    (haval : ∀ (k : Nat), k < g.V.toNat → ∀ x ∈ g.adj.getD k [], 0 ≤ x ∧ x < g.V) :
    (findMaxMatchingM g).isSome = true := by
  obtain ⟨m', hk⟩ := kuhnLoop_spec hal haval (intRange g.V)
    (List.replicate g.V.toNat (-1))
    (fun i hi => mem_intRange.mp hi) (List.length_replicate _ _)
    (fun i x hx => by
      obtain ⟨h0, h1⟩ := getI_bounds hx
      rw [List.length_replicate] at h1
      rw [getI_replicate h0 h1] at hx
      injection hx with hx
      exact Or.inl hx.symm)
  unfold findMaxMatchingM
  rw [hk]
  rfl

/-- C9: on every validly constructed graph both matching engines terminate:
the graph.hpp phase loop stops (it runs exactly one BFS phase, finds no
augmenting path, and exits, well within its fuel), and the recursive DFS of
main.cpp completes within fuel `V + 1` because every recursive call follows a
fresh `used` mark. -/
theorem matching_engines_terminate (n : Int) (es : List Edge) (g : MinEdgeCover)
    (h : mkMinEdgeCover n es = .ok g) :
    (findMaxMatching g).isSome = true ∧
    (findMaxMatchingM (mkGraphM n (es.map (fun e => (e.u, e.v))))).isSome = true := by
  obtain ⟨hgn, hge, hnpos, hal, hesb, hmemiff, hnonemp⟩ := mk_ok_spec h
  constructor
  · obtain ⟨matching, hfm, _⟩ := findMaxMatching_spec h
    rw [hfm]
    rfl
  · have hfold : (mkGraphM n (es.map (fun e => (e.u, e.v)))).V = n ∧
        (mkGraphM n (es.map (fun e => (e.u, e.v)))).adj.length = n.toNat ∧
        (∀ (k : Nat), k < n.toNat →
          ∀ x ∈ (mkGraphM n (es.map (fun e => (e.u, e.v)))).adj.getD k [],
            0 ≤ x ∧ x < n) := by
      unfold mkGraphM
      exact mkGraphM_fold (es.map (fun e => (e.u, e.v)))
        ⟨n, List.replicate n.toNat [], []⟩ rfl (List.length_replicate _ _)
        (fun k hk x hx => by
          have hnil : (List.replicate n.toNat ([] : List Int)).getD k [] = [] :=
            getD_replicate_nil _ _
          rw [show (⟨n, List.replicate n.toNat [], []⟩ : GraphM).adj
              = List.replicate n.toNat [] from rfl, hnil] at hx
          cases hx)
        (fun p hp => by
          obtain ⟨e, he, hpe⟩ := List.mem_map.mp hp
          obtain ⟨a, b, c, d⟩ := hesb e he
          rw [← hpe]
          exact ⟨a, b, c, d⟩)
    obtain ⟨hV, hlen, hval⟩ := hfold
    apply findMaxMatchingM_spec
    · rw [hV, hlen]
    · intro k hk x hx
      rw [hV] at hk ⊢
      exact hval k hk x hx

/-- Witness for C9: the triangle. -/
theorem matching_engines_terminate_witness :
    (findMaxMatching triG).isSome = true ∧
    (findMaxMatchingM (mkGraphM 3 (triEdges.map (fun e => (e.u, e.v))))).isSome = true :=
  matching_engines_terminate 3 triEdges triG (by rfl)
